import Mathlib

/-
  Verification development for the agent orchestration core of the anvil
  repository: the conversation Context Manager, the Lifecycle phase and plan
  state machine, the Approval Manager, the transactional Change Manager and
  the bounded agent request loop.

  The Go source is shallowly embedded: each Go struct becomes a Lean
  structure, each method a pure function on that structure (mutex locking,
  defensive copying, goroutine callbacks and wall-clock timestamps are not
  modelled since they do not affect the verified properties; Go int is
  modelled as Int, with Int division agreeing with Go truncated division on
  the non-negative numerators that occur here).
-/

namespace Anvil

/-! ## Messages and roles (internal/llm types.go) -/

inductive Role where
  | user
  | assistant
  | system
deriving DecidableEq

structure Message where
  role : Role
  content : String
deriving DecidableEq

/-! ## Context Manager (internal/agent context source) -/

structure ContextConfig where
  maxMessages : Int
  maxTokens : Int
  charsPerToken : Int
deriving DecidableEq

def DefaultContextConfig : ContextConfig :=
  { maxMessages := 100, maxTokens := 100000, charsPerToken := 4 }

/-- Go struct Context. The prune callback and mutex are not modelled. -/
structure AgentContext where
  messages : List Message
  config : ContextConfig
  prunedSummary : String
  prunedCount : Int
deriving DecidableEq

def NewContext : AgentContext :=
  { messages := [], config := DefaultContextConfig, prunedSummary := "", prunedCount := 0 }

def NewContextWithConfig (config : ContextConfig) : AgentContext :=
  let config :=
    if config.charsPerToken ≤ 0 then { config with charsPerToken := 4 } else config
  { messages := [], config := config, prunedSummary := "", prunedCount := 0 }

/-- Per-message token estimate, len(msg.Content) / charsPerToken in Go. -/
def messageTokens (cpt : Int) (m : Message) : Int :=
  (m.content.length : Int) / cpt

def totalChars (msgs : List Message) : Nat :=
  msgs.foldl (fun acc m => acc + m.content.length) 0

/-- Context.estimateTokensLocked: total characters divided once. -/
def estimateTokensLocked (c : AgentContext) : Int :=
  ((totalChars c.messages : Int)) / c.config.charsPerToken

def isSystem (m : Message) : Bool :=
  m.role == Role.system

def generatePrunedSummary (pruned : List Message) : String :=
  if pruned.length = 0 then ""
  else
    let userCount := (pruned.filter (fun m => m.role == Role.user)).length
    let assistantCount := (pruned.filter (fun m => m.role == Role.assistant)).length
    let parts :=
      (if userCount > 0 then [toString userCount ++ " user message(s)"] else []) ++
      (if assistantCount > 0 then [toString assistantCount ++ " assistant message(s)"] else [])
    "Pruned " ++ String.intercalate " and " parts ++ " from context"

/-- The newest-to-oldest greedy keep scan of Context.prune, one step per
message: state is (running token total, kept list, pruned-by-token list). -/
def pruneTokenStep (cpt availableTokens : Int)
    (st : Int × List Message × List Message) (m : Message) :
    Int × List Message × List Message :=
  let t := messageTokens cpt m
  if st.1 + t ≤ availableTokens then (st.1 + t, m :: st.2.1, st.2.2)
  else (st.1, st.2.1, st.2.2 ++ [m])

/-- Context.prune. Pruned messages are handed to a callback in Go; only the
summary and counter side effects are modelled. -/
def prune (c : AgentContext) : AgentContext :=
  let systemMessages := c.messages.filter isSystem
  let otherMessages := c.messages.filter (fun m => !isSystem m)
  let systemTokens :=
    systemMessages.foldl (fun acc m => acc + messageTokens c.config.charsPerToken m) 0
  let countStage :=
    if c.config.maxMessages > 0 then
      let maxOther := max (c.config.maxMessages - systemMessages.length) 0
      if (otherMessages.length : Int) > maxOther then
        (otherMessages.take (otherMessages.length - maxOther.toNat),
         otherMessages.drop (otherMessages.length - maxOther.toNat))
      else (([] : List Message), otherMessages)
    else (([] : List Message), otherMessages)
  let pruned1 := countStage.1
  let other1 := countStage.2
  let tokenStage :=
    if c.config.maxTokens > 0 then
      let availableTokens := c.config.maxTokens - systemTokens
      let st := other1.reverse.foldl
        (pruneTokenStep c.config.charsPerToken availableTokens) (0, [], [])
      (st.2.2, st.2.1)
    else (([] : List Message), other1)
  let pruned2 := tokenStage.1
  let other2 := tokenStage.2
  let prunedMessages := pruned1 ++ pruned2
  { c with
    messages := systemMessages ++ other2
    prunedCount := c.prunedCount + prunedMessages.length
    prunedSummary :=
      if prunedMessages.length > 0 then generatePrunedSummary prunedMessages
      else c.prunedSummary }

/-- Context.checkAndPrune. -/
def checkAndPrune (c : AgentContext) : AgentContext :=
  if (c.config.maxMessages > 0 ∧ (c.messages.length : Int) > c.config.maxMessages) ∨
     (c.config.maxTokens > 0 ∧ estimateTokensLocked c > c.config.maxTokens) then
    prune c
  else c

/-- Context.AddMessage: append, then prune if over budget. -/
def AddMessage (c : AgentContext) (msg : Message) : AgentContext :=
  checkAndPrune { c with messages := c.messages ++ [msg] }

/-- Context.GetMessages (the defensive copy is identity in a pure model). -/
def GetMessages (c : AgentContext) : List Message :=
  c.messages

def EstimateTokens (c : AgentContext) : Int :=
  estimateTokensLocked c

/-- Context.RemoveLastMessage. -/
def RemoveLastMessage (c : AgentContext) : AgentContext :=
  if c.messages.length > 0 then { c with messages := c.messages.dropLast }
  else c

/-- Context.RemoveLastN (n is a Go int; a negative n would panic via an
out-of-range slice, so the model takes n : Nat). -/
def RemoveLastN (c : AgentContext) (n : Nat) : AgentContext :=
  if n ≥ c.messages.length then { c with messages := [] }
  else { c with messages := c.messages.take (c.messages.length - n) }

/-- Running a sequence of AddMessage calls on a freshly constructed context. -/
def runAdds (cfg : ContextConfig) (msgs : List Message) : AgentContext :=
  msgs.foldl AddMessage (NewContextWithConfig cfg)

/-! ## Lifecycle (internal/agent/lifecycle.go) -/

inductive Phase where
  | understand
  | plan
  | act
  | verify
deriving DecidableEq

inductive StepStatus where
  | pending
  | inProgress
  | completed
  | failed
deriving DecidableEq

/-- Go struct PlanStep; the error field (a Go error value) is modelled as an
optional message. -/
structure PlanStep where
  id : Nat
  description : String
  status : StepStatus
  result : String
  error : Option String
deriving DecidableEq

structure Lifecycle where
  currentPhase : Phase
  planSteps : List PlanStep
  currentStep : Int
deriving DecidableEq

def NewLifecycle : Lifecycle :=
  { currentPhase := Phase.understand, planSteps := [], currentStep := -1 }

def NextPhase (l : Lifecycle) : Lifecycle :=
  { l with currentPhase :=
      match l.currentPhase with
      | Phase.understand => Phase.plan
      | Phase.plan => Phase.act
      | Phase.act => Phase.verify
      | Phase.verify => Phase.understand }

/-- Lifecycle.SetPlan. -/
def SetPlan (l : Lifecycle) (steps : List String) : Lifecycle :=
  { l with
    planSteps := steps.enum.map (fun p =>
      { id := p.1, description := p.2, status := StepStatus.pending,
        result := "", error := none })
    currentStep := -1 }

def isPending (s : PlanStep) : Bool :=
  s.status == StepStatus.pending

/-- Lifecycle.StartNextStep: marks the first Pending step InProgress and
returns a copy of it. -/
def StartNextStep (l : Lifecycle) : Lifecycle × Option PlanStep :=
  match l.planSteps.findIdx? isPending with
  | none => (l, none)
  | some i =>
    match l.planSteps[i]? with
    | none => (l, none)
    | some s =>
      let s1 := { s with status := StepStatus.inProgress }
      ({ l with planSteps := l.planSteps.set i s1, currentStep := (i : Int) }, some s1)

/-- Lifecycle.CompleteCurrentStep: guarded only by index validity. -/
def CompleteCurrentStep (l : Lifecycle) (result : String) : Lifecycle :=
  if 0 ≤ l.currentStep ∧ l.currentStep < (l.planSteps.length : Int) then
    match l.planSteps[l.currentStep.toNat]? with
    | none => l
    | some s =>
      let s1 := { s with status := StepStatus.completed, result := result }
      { l with planSteps := l.planSteps.set l.currentStep.toNat s1 }
  else l

/-- Lifecycle.FailCurrentStep: guarded only by index validity. -/
def FailCurrentStep (l : Lifecycle) (err : Option String) : Lifecycle :=
  if 0 ≤ l.currentStep ∧ l.currentStep < (l.planSteps.length : Int) then
    match l.planSteps[l.currentStep.toNat]? with
    | none => l
    | some s =>
      let s1 := { s with status := StepStatus.failed, error := err }
      { l with planSteps := l.planSteps.set l.currentStep.toNat s1 }
  else l

def LifecycleReset (_ : Lifecycle) : Lifecycle :=
  { currentPhase := Phase.understand, planSteps := [], currentStep := -1 }

/-- The number of steps whose status is InProgress. -/
def inProgressCount (l : Lifecycle) : Nat :=
  l.planSteps.countP (fun s => s.status == StepStatus.inProgress)

/-- One Lifecycle operation, for stating trace properties. -/
inductive LOp where
  | setPlanOp (steps : List String)
  | startNextOp
  | completeOp (result : String)
  | failOp (err : Option String)
  | resetOp
deriving DecidableEq

def execLOp (l : Lifecycle) : LOp → Lifecycle
  | LOp.setPlanOp steps => SetPlan l steps
  | LOp.startNextOp => (StartNextStep l).1
  | LOp.completeOp r => CompleteCurrentStep l r
  | LOp.failOp e => FailCurrentStep l e
  | LOp.resetOp => LifecycleReset l

def runLOps (l : Lifecycle) (ops : List LOp) : Lifecycle :=
  ops.foldl execLOp l

/-- A trace is safe when StartNextStep is only invoked in states where no
step is InProgress. -/
def safeLOps (l : Lifecycle) : List LOp → Bool
  | [] => true
  | op :: rest =>
    (op != LOp.startNextOp || inProgressCount l == 0) && safeLOps (execLOp l op) rest

/-! ## Decimal formatting of Go fmt.Sprintf("approval_%d", n) -/

def digitChar (d : Nat) : Char :=
  Char.ofNat (48 + d)

/-- Decimal digits of n, most significant first, with explicit fuel so the
definition is structural (fuel n suffices since n / 10 shrinks). -/
def decCharsAux : Nat → Nat → List Char
  | 0, _ => []
  | _ + 1, 0 => []
  | fuel + 1, n + 1 =>
    decCharsAux fuel ((n + 1) / 10) ++ [digitChar ((n + 1) % 10)]

def decRepr (n : Nat) : List Char :=
  if n = 0 then [Char.ofNat 48] else decCharsAux n n

/-- The %d rendering of a Go non-negative int. -/
def decimalString (n : Nat) : String :=
  String.mk (decRepr n)

def approvalID (n : Nat) : String :=
  "approval_" ++ decimalString n

/-! ## Approval Manager (internal/agent approval source) -/

/-- schema.ToolCall; the string-keyed arbitrarily typed argument map is
modelled as an association list of strings (values are opaque here). -/
structure ToolCall where
  id : String
  name : String
  arguments : List (String × String)
deriving DecidableEq

/-- schema.ApprovalRequest. -/
structure ApprovalRequest where
  action : String
  reason : String
  destructive : Bool
  preview : String
deriving DecidableEq

inductive ApprovalStatus where
  | pending
  | approved
  | rejected
deriving DecidableEq

structure ApprovalItem where
  id : String
  toolCall : ToolCall
  request : ApprovalRequest
  status : ApprovalStatus
  reason : String
deriving DecidableEq

/-- Go struct ApprovalManager: items is a Go map (modelled as an association
list with distinct keys, insert-or-replace semantics, so that its length
matches len(am.items)); order is the insertion-order list. The decision
callback is invoked outside the lock in Go and is not modelled. -/
structure ApprovalManager where
  items : List (String × ApprovalItem)
  order : List String
deriving DecidableEq

def NewApprovalManager : ApprovalManager :=
  { items := [], order := [] }

def itemsLookup (items : List (String × ApprovalItem)) (id : String) :
    Option ApprovalItem :=
  match items.find? (fun kv => kv.1 == id) with
  | some kv => some kv.2
  | none => none

/-- Go map assignment m[id] = item: replace the binding when the key is
present, append it otherwise. -/
def itemsInsert : List (String × ApprovalItem) → String → ApprovalItem →
    List (String × ApprovalItem)
  | [], id, item => [(id, item)]
  | kv :: rest, id, item =>
    if kv.1 == id then (id, item) :: rest else kv :: itemsInsert rest id item

/-- ApprovalManager.Add: the fresh id is derived from len(am.items). -/
def ApprovalAdd (am : ApprovalManager) (toolCall : ToolCall)
    (request : ApprovalRequest) : ApprovalManager × ApprovalItem :=
  let id := approvalID am.items.length
  let item : ApprovalItem :=
    { id := id, toolCall := toolCall, request := request,
      status := ApprovalStatus.pending, reason := "" }
  ({ items := itemsInsert am.items id item, order := am.order ++ [id] }, item)

/-- ApprovalManager.Approve. -/
def Approve (am : ApprovalManager) (id : String) :
    ApprovalManager × Except String Unit :=
  match itemsLookup am.items id with
  | none => (am, Except.error ("approval item " ++ id ++ " not found"))
  | some item =>
    if item.status ≠ ApprovalStatus.pending then
      (am, Except.error ("approval item " ++ id ++ " is not pending"))
    else
      let item1 := { item with status := ApprovalStatus.approved }
      ({ am with items := itemsInsert am.items id item1 }, Except.ok ())

/-- ApprovalManager.Reject. -/
def Reject (am : ApprovalManager) (id : String) (reason : String) :
    ApprovalManager × Except String Unit :=
  match itemsLookup am.items id with
  | none => (am, Except.error ("approval item " ++ id ++ " not found"))
  | some item =>
    if item.status ≠ ApprovalStatus.pending then
      (am, Except.error ("approval item " ++ id ++ " is not pending"))
    else
      let item1 := { item with status := ApprovalStatus.rejected, reason := reason }
      ({ am with items := itemsInsert am.items id item1 }, Except.ok ())

/-- ApprovalManager.ClearResolved: rebuild items and order from the Pending
entries of order, in order. -/
def ClearResolved (am : ApprovalManager) : ApprovalManager :=
  am.order.foldl
    (fun acc id =>
      match itemsLookup am.items id with
      | some item =>
        if item.status == ApprovalStatus.pending then
          { items := itemsInsert acc.items id item, order := acc.order ++ [id] }
        else acc
      | none => acc)
    { items := [], order := [] }

/-- One ApprovalManager operation, for stating trace properties.
clearResolvedOp covers ClearResolved; Clear is not involved in the claims. -/
inductive AOp where
  | addOp (toolCall : ToolCall) (request : ApprovalRequest)
  | approveOp (id : String)
  | rejectOp (id : String) (reason : String)
  | clearResolvedOp
deriving DecidableEq

def execAOp (am : ApprovalManager) : AOp → ApprovalManager
  | AOp.addOp tc rq => (ApprovalAdd am tc rq).1
  | AOp.approveOp id => (Approve am id).1
  | AOp.rejectOp id r => (Reject am id r).1
  | AOp.clearResolvedOp => ClearResolved am

def runAOps (am : ApprovalManager) (ops : List AOp) : ApprovalManager :=
  ops.foldl execAOp am

def hasClearResolved (ops : List AOp) : Bool :=
  ops.any (fun op => op == AOp.clearResolvedOp)

/-! ## Change Manager (internal/agent changes source)

The storage capability (os.WriteFile / os.Remove / os.Rename) is modelled as
a flat map from paths to file contents together with an oracle of paths on
which writes fail with an I/O error; directories and permissions are not
modelled (os.MkdirAll is a no-op). Wall-clock timestamps (AppliedAt,
RolledBackAt, CreatedAt and the time-based change-set ids) carry no logic
and are omitted; the auxiliary changeSets index map is likewise omitted
since no claim involves it. -/

inductive ChangeType where
  | create
  | modify
  | delete
  | rename
deriving DecidableEq

structure FileChange where
  id : String
  path : String
  oldPath : String
  type : ChangeType
  oldContent : String
  newContent : String
  diff : String
  description : String
  applied : Bool
  rolledBack : Bool
deriving DecidableEq

structure ChangeSet where
  id : String
  name : String
  description : String
  changes : List FileChange
  rolledBack : Bool
deriving DecidableEq

structure ChangeManager where
  current : Option ChangeSet
  history : List ChangeSet

/-- The filesystem as seen through the storage capability, plus the
write-failure oracle that injects I/O errors. -/
structure FS where
  files : String → Option String
  failWrite : String → Bool

/-- os.WriteFile. -/
def fsWrite (fs : FS) (path content : String) : Option FS :=
  if fs.failWrite path then none
  else some { fs with files := fun q => if q = path then some content else fs.files q }

/-- os.Remove: fails when the file does not exist. -/
def fsRemove (fs : FS) (path : String) : Option FS :=
  match fs.files path with
  | none => none
  | some _ => some { fs with files := fun q => if q = path then none else fs.files q }

/-- os.Rename: fails when the source does not exist; overwrites the target. -/
def fsRename (fs : FS) (oldPath newPath : String) : Option FS :=
  match fs.files oldPath with
  | none => none
  | some content =>
    some { fs with files := fun q =>
      if q = newPath then some content
      else if q = oldPath then none
      else fs.files q }

/-- applyChange (changes source): one file change against storage. -/
def applyChange (change : FileChange) (fs : FS) : Option FS :=
  match change.type with
  | ChangeType.create => fsWrite fs change.path change.newContent
  | ChangeType.modify => fsWrite fs change.path change.newContent
  | ChangeType.delete => fsRemove fs change.path
  | ChangeType.rename => fsRename fs change.oldPath change.path

/-- rollbackChange (changes source): the inverse operation. -/
def rollbackChange (change : FileChange) (fs : FS) : Option FS :=
  match change.type with
  | ChangeType.create => fsRemove fs change.path
  | ChangeType.modify => fsWrite fs change.path change.oldContent
  | ChangeType.delete => fsWrite fs change.path change.oldContent
  | ChangeType.rename => fsRename fs change.path change.oldPath

/-- The in-order apply loop of ApplyChangeSet: marks each applied change,
stops at the first failure and reports the wrapping error message. -/
def applyLoop (fs : FS) : List FileChange → FS × List FileChange × Option String
  | [] => (fs, [], none)
  | c :: rest =>
    match applyChange c fs with
    | none => (fs, c :: rest, some ("failed to apply change " ++ c.path))
    | some fs1 =>
      let c1 := { c with applied := true }
      let (fs2, rest1, err) := applyLoop fs1 rest
      (fs2, c1 :: rest1, err)

/-- rollbackApplied: reverse-order rollback of the applied, not yet
rolled-back changes; rollbackChange errors are ignored in Go, so a failed
inverse operation leaves the filesystem as it was while the flag is still
set. -/
def rollbackList (fs : FS) : List FileChange → FS × List FileChange
  | [] => (fs, [])
  | c :: rest =>
    let (fs1, rest1) := rollbackList fs rest
    if c.applied && !c.rolledBack then
      let fs2 := (rollbackChange c fs1).getD fs1
      (fs2, { c with rolledBack := true } :: rest1)
    else (fs1, c :: rest1)

/-- ChangeManager.ApplyChangeSet. On failure the applied prefix is rolled
back, the set stays current and is not committed to history. -/
def ApplyChangeSet (cm : ChangeManager) (fs : FS) :
    ChangeManager × FS × Except String Unit :=
  match cm.current with
  | none => (cm, fs, Except.error "no active change set")
  | some cs =>
    let (fs1, changes1, err) := applyLoop fs cs.changes
    match err with
    | some e =>
      let (fs2, changes2) := rollbackList fs1 changes1
      ({ cm with current := some { cs with changes := changes2 } }, fs2,
        Except.error e)
    | none =>
      ({ current := none,
         history := cm.history ++ [{ cs with changes := changes1 }] }, fs1,
        Except.ok ())

def GetHistory (cm : ChangeManager) : List ChangeSet :=
  cm.history

/-! ## Agent request loop (internal/agent/engine.go, Agent.loop)

The claim quantifies over every model and tool behaviour, so the two
external collaborators are abstracted as an oracle: for each iteration it
yields the Model Service outcome (llmClient.Complete) and, for the reply of
a successful call, the tool-call directives extracted from the reply text
together with the Tool Executor outcome of each directive
(a.extractToolCalls / a.toolRegistry.Execute). The loop body itself —
message appending through the Context Manager, approval deferral, the
continue/done decisions and the iteration bound — is embedded from the
source. -/

inductive ToolOutcome where
  | failed (err : String)
  | needsApproval (request : ApprovalRequest)
  | executed (output : String)
deriving DecidableEq

structure LoopIter where
  model : Except String String
  calls : List (ToolCall × ToolOutcome)

/-- The fields of the Go Response that the loop assigns. -/
structure LoopResp where
  message : String
  toolCalls : List ToolCall
  toolResults : List (ToolCall × String)
  requiresApproval : Bool
  pendingApprovals : List (ToolCall × ApprovalRequest)
  done : Bool
  error : Option String

def emptyLoopResp : LoopResp :=
  { message := "", toolCalls := [], toolResults := [],
    requiresApproval := false, pendingApprovals := [],
    done := false, error := none }

/-- The per-iteration tool dispatch: failures become context messages and
the loop moves on, approval-bearing results are deferred, the rest are
executed and their results appended to context. -/
def processCalls (ctx : AgentContext) :
    List (ToolCall × ToolOutcome) →
      AgentContext × List (ToolCall × ApprovalRequest) × List (ToolCall × String)
  | [] => (ctx, [], [])
  | c :: rest =>
    match c.2 with
    | ToolOutcome.failed err =>
      processCalls
        (AddMessage ctx ⟨Role.user, "Tool " ++ c.1.name ++ " failed: " ++ err⟩) rest
    | ToolOutcome.needsApproval rq =>
      let (ctx1, pend, execed) := processCalls ctx rest
      (ctx1, (c.1, rq) :: pend, execed)
    | ToolOutcome.executed out =>
      let (ctx1, pend, execed) :=
        processCalls
          (AddMessage ctx ⟨Role.user, "Tool " ++ c.1.name ++ " result:\n" ++ out⟩) rest
      (ctx1, pend, (c.1, out) :: execed)

def maxIterations : Nat := 10

def loopExceededError : String := "agent loop exceeded maximum iterations"

/-- Agent.loop, with fuel for the iteration counter; the last component
counts the Model Service calls made. -/
def loopAux (env : Nat → LoopIter) :
    Nat → Nat → AgentContext → LoopResp → Nat → AgentContext × LoopResp × Nat
  | 0, _, ctx, resp, calls =>
    (ctx, { resp with error := some loopExceededError, done := true }, calls)
  | fuel + 1, i, ctx, resp, calls =>
    match (env i).model with
    | Except.error e =>
      (ctx, { resp with error := some ("LLM request failed: " ++ e) }, calls + 1)
    | Except.ok content =>
      let ctx := AddMessage ctx ⟨Role.assistant, content⟩
      let resp := { resp with message := content }
      let toolCalls := (env i).calls
      if toolCalls.length = 0 then
        (ctx, { resp with done := true }, calls + 1)
      else
        let (ctx, pend, execed) := processCalls ctx toolCalls
        let resp := { resp with
          toolCalls := toolCalls.map Prod.fst, toolResults := execed }
        if pend.length > 0 then
          let resp1 :=
            { resp with
              requiresApproval := true
              pendingApprovals := pend
              done := false }
          (ctx, resp1, calls + 1)
        else if execed.length > 0 then
          loopAux env fuel (i + 1) ctx resp (calls + 1)
        else
          (ctx, { resp with done := true }, calls + 1)

def loop (env : Nat → LoopIter) (ctx : AgentContext) : AgentContext × LoopResp × Nat :=
  loopAux env maxIterations 0 ctx emptyLoopResp 0

def outcomeNeedsApproval : ToolOutcome → Bool
  | ToolOutcome.needsApproval _ => true
  | _ => false

def outcomeExecuted : ToolOutcome → Bool
  | ToolOutcome.executed _ => true
  | _ => false

/-- An iteration after which the Go loop takes the continue branch: the
model call succeeds, some tool-call directives are extracted, none of them
needs approval and at least one actually executes. -/
def iterContinues (it : LoopIter) : Bool :=
  (match it.model with
   | Except.error _ => false
   | Except.ok _ => true) &&
  !it.calls.isEmpty &&
  it.calls.all (fun c => !outcomeNeedsApproval c.2) &&
  it.calls.any (fun c => outcomeExecuted c.2)

/-! ## Claim-side measures and concrete instances used by witnesses -/

/-- The sum of per-message token estimates over the retained messages, the
quantity the pruning loop actually budgets (each message floored
separately, unlike EstimateTokens which floors the aggregate). -/
def perMessageTokens (c : AgentContext) : Int :=
  c.messages.foldl (fun acc m => acc + messageTokens c.config.charsPerToken m) 0

def nonSystemMessages (c : AgentContext) : List Message :=
  c.messages.filter (fun m => !isSystem m)

/-- Claim-side abbreviation: the per-message token sum of a message list. -/
def sumTokens (cpt : Int) (l : List Message) : Int :=
  (l.map (messageTokens cpt)).sum

def mkModify (i p o n d ds : String) : FileChange :=
  { id := i, path := p, oldPath := "", type := ChangeType.modify,
    oldContent := o, newContent := n, diff := d, description := ds,
    applied := false, rolledBack := false }

def opsW : List LOp :=
  [LOp.setPlanOp ["first step", "second step"], LOp.startNextOp,
   LOp.completeOp "done", LOp.startNextOp]

def ctxW : AgentContext :=
  runAdds { maxMessages := 0, maxTokens := 0, charsPerToken := 4 }
    [⟨Role.user, "hello"⟩, ⟨Role.system, "rules"⟩]

def fsW : FS :=
  { files := fun _ => none, failWrite := fun _ => false }

def changeW : FileChange := mkModify "c1" "a.txt" "old text" "new text" "" ""

def fsW2 : FS :=
  { files := fun _ => some "base", failWrite := fun q => q == "p3" }

def cmW : ChangeManager :=
  { current := some
      { id := "cs1", name := "set", description := "",
        changes := [mkModify "c1" "p1" "o1" "n1" "" "",
                    mkModify "c2" "p2" "o2" "n2" "" "",
                    mkModify "c3" "p3" "o3" "n3" "" ""],
        rolledBack := false },
    history := [] }

def tcW : ToolCall := { id := "call_0", name := "read_file", arguments := [] }

def rqW : ApprovalRequest :=
  { action := "run", reason := "effectful", destructive := false, preview := "" }

def amResolvedW : ApprovalManager :=
  (Approve (ApprovalAdd NewApprovalManager tcW rqW).1 "approval_0").1

def itemW : ApprovalItem :=
  { id := "approval_0", toolCall := tcW, request := rqW,
    status := ApprovalStatus.approved, reason := "" }

/-- Claim-side decoding of the decimal rendering, used to prove that the
approval id format is injective. -/
def decodeDigits (cs : List Char) : Nat :=
  cs.foldl (fun a c => a * 10 + (c.toNat - 48)) 0

/-- Claim-side predicate: the registry keys are exactly the generated ids
approval_0 .. approval_(n-1). -/
def goodKeys (am : ApprovalManager) : Prop :=
  am.items.map Prod.fst = (List.range am.items.length).map approvalID

def aopsW : List AOp :=
  [AOp.addOp tcW rqW, AOp.approveOp "approval_0", AOp.addOp tcW rqW]

def envW : Nat → LoopIter :=
  fun _ => { model := Except.ok "working",
             calls := [(tcW, ToolOutcome.executed "file contents")] }

def cfg1W : ContextConfig := { maxMessages := 0, maxTokens := 1, charsPerToken := 4 }

def msg3W : Message := ⟨Role.user, "aaa"⟩

/-! # Theorems -/

/-! ## Lifecycle counting lemmas -/

theorem countP_set_le (p : PlanStep → Bool) (l : List PlanStep) (i : Nat) (a : PlanStep) :
    (l.set i a).countP p ≤ l.countP p + (if p a then 1 else 0) := by
  induction l generalizing i with
  | nil => simp [List.set]
  | cons x xs ih =>
    cases i with
    | zero =>
      simp only [List.set, List.countP_cons]
      have := List.countP_cons p a xs
      omega
    | succ j =>
      simp only [List.set, List.countP_cons]
      have := ih j
      omega

theorem countP_set_le_of_neg (p : PlanStep → Bool) (l : List PlanStep) (i : Nat)
    (a : PlanStep) (ha : p a = false) :
    (l.set i a).countP p ≤ l.countP p := by
  have := countP_set_le p l i a
  rw [ha] at this
  simpa using this

theorem startNext_count_le (l : Lifecycle) (h0 : inProgressCount l = 0) :
    inProgressCount (StartNextStep l).1 ≤ 1 := by
  unfold StartNextStep
  split
  · show inProgressCount l ≤ 1
    omega
  · split
    · show inProgressCount l ≤ 1
      omega
    · rename_i x1 i hf x2 s hg
      show (l.planSteps.set i { s with status := StepStatus.inProgress }).countP
        (fun st => st.status == StepStatus.inProgress) ≤ 1
      have hle := countP_set_le (fun st => st.status == StepStatus.inProgress) l.planSteps i
        { s with status := StepStatus.inProgress }
      simp only [inProgressCount] at h0
      simp only [beq_self_eq_true, if_true] at hle
      omega

theorem complete_count_le (l : Lifecycle) (r : String) (h : inProgressCount l ≤ 1) :
    inProgressCount (CompleteCurrentStep l r) ≤ 1 := by
  unfold CompleteCurrentStep
  split
  · split
    · exact h
    · rename_i x s hg
      show (l.planSteps.set l.currentStep.toNat
        { s with status := StepStatus.completed, result := r }).countP
        (fun st => st.status == StepStatus.inProgress) ≤ 1
      exact le_trans (countP_set_le_of_neg _ _ _ _ (by simp)) h
  · exact h

theorem fail_count_le (l : Lifecycle) (e : Option String) (h : inProgressCount l ≤ 1) :
    inProgressCount (FailCurrentStep l e) ≤ 1 := by
  unfold FailCurrentStep
  split
  · split
    · exact h
    · rename_i x s hg
      show (l.planSteps.set l.currentStep.toNat
        { s with status := StepStatus.failed, error := e }).countP
        (fun st => st.status == StepStatus.inProgress) ≤ 1
      exact le_trans (countP_set_le_of_neg _ _ _ _ (by simp)) h
  · exact h

theorem setPlan_count_zero (l : Lifecycle) (steps : List String) :
    inProgressCount (SetPlan l steps) = 0 := by
  unfold SetPlan inProgressCount
  rw [List.countP_eq_zero]
  intro s hs
  simp only [List.mem_map] at hs
  obtain ⟨pr, _, hpr⟩ := hs
  subst hpr
  simp

theorem execLOp_count_le (l : Lifecycle) (op : LOp)
    (h : inProgressCount l ≤ 1)
    (hop : op = LOp.startNextOp → inProgressCount l = 0) :
    inProgressCount (execLOp l op) ≤ 1 := by
  cases op with
  | setPlanOp steps =>
    show inProgressCount (SetPlan l steps) ≤ 1
    rw [setPlan_count_zero]
    omega
  | startNextOp => exact startNext_count_le l (hop rfl)
  | completeOp r => exact complete_count_le l r h
  | failOp e => exact fail_count_le l e h
  | resetOp =>
    show inProgressCount NewLifecycle ≤ 1
    simp [NewLifecycle, inProgressCount]

theorem at_most_one_in_progress_aux (ops : List LOp) (l : Lifecycle)
    (h : inProgressCount l ≤ 1) (hsafe : safeLOps l ops = true) :
    inProgressCount (runLOps l ops) ≤ 1 := by
  induction ops generalizing l with
  | nil => simpa [runLOps] using h
  | cons op rest ih =>
    simp only [safeLOps, Bool.and_eq_true, Bool.or_eq_true, bne_iff_ne, ne_eq,
      beq_iff_eq] at hsafe
    obtain ⟨hhd, htl⟩ := hsafe
    have hstep : inProgressCount (execLOp l op) ≤ 1 := by
      apply execLOp_count_le l op h
      intro hop
      rcases hhd with hne | hz
      · exact absurd hop hne
      · exact hz
    simpa [runLOps] using ih (execLOp l op) hstep htl

/-! ## C4: at most one step InProgress -/

/-- C4 counterexample: the claim fails as stated. After SetPlan with two
steps, calling StartNextStep twice in a row (without resolving the first
step) leaves two steps with status InProgress, because StartNextStep only
searches for a Pending step and does not check for an existing InProgress
one. -/
theorem double_start_two_in_progress :
    ¬ (inProgressCount (runLOps NewLifecycle
        [LOp.setPlanOp ["first step", "second step"],
         LOp.startNextOp, LOp.startNextOp]) ≤ 1) := by
  decide

/-- C4 (amended): after any sequence of SetPlan, StartNextStep,
CompleteCurrentStep, FailCurrentStep and Reset in which StartNextStep is
only invoked while no step is InProgress, at most one PlanStep has status
InProgress. -/
theorem at_most_one_in_progress_of_safe (ops : List LOp)
    (hsafe : safeLOps NewLifecycle ops = true) :
    inProgressCount (runLOps NewLifecycle ops) ≤ 1 :=
  at_most_one_in_progress_aux ops NewLifecycle (by decide) hsafe

/-- C4 witness: a concrete safe trace satisfying the theorem. -/
theorem at_most_one_in_progress_of_safe_witness :
    safeLOps NewLifecycle opsW = true ∧
    inProgressCount (runLOps NewLifecycle opsW) ≤ 1 :=
  ⟨by decide, at_most_one_in_progress_of_safe opsW (by decide)⟩

/-! ## C5: CompleteCurrentStep / FailCurrentStep guards -/

/-- C5 counterexample: the claim fails as stated. After the single plan step
has been completed no step is InProgress, yet a second CompleteCurrentStep
overwrites the stored result and FailCurrentStep flips the completed step
to Failed, because the Go guard checks only that currentStep is a valid
index, not that the step is InProgress. -/
theorem complete_after_resolution_mutates :
    inProgressCount (runLOps NewLifecycle
      [LOp.setPlanOp ["only step"], LOp.startNextOp,
       LOp.completeOp "first result"]) = 0 ∧
    CompleteCurrentStep (runLOps NewLifecycle
      [LOp.setPlanOp ["only step"], LOp.startNextOp,
       LOp.completeOp "first result"]) "second result" ≠
      runLOps NewLifecycle
        [LOp.setPlanOp ["only step"], LOp.startNextOp,
         LOp.completeOp "first result"] ∧
    FailCurrentStep (runLOps NewLifecycle
      [LOp.setPlanOp ["only step"], LOp.startNextOp,
       LOp.completeOp "first result"]) (some "boom") ≠
      runLOps NewLifecycle
        [LOp.setPlanOp ["only step"], LOp.startNextOp,
         LOp.completeOp "first result"] := by
  decide

/-- C5 (amended): CompleteCurrentStep and FailCurrentStep are no-ops exactly
when the current-step index is out of range (currentStep is -1 after
SetPlan or Reset, or past the end); with a valid index they overwrite that
step regardless of its status. -/
theorem complete_fail_noop_out_of_range (l : Lifecycle) (r : String)
    (e : Option String)
    (h : l.currentStep < 0 ∨ (l.planSteps.length : Int) ≤ l.currentStep) :
    CompleteCurrentStep l r = l ∧ FailCurrentStep l e = l := by
  have hc : ¬ (0 ≤ l.currentStep ∧ l.currentStep < (l.planSteps.length : Int)) := by
    omega
  unfold CompleteCurrentStep FailCurrentStep
  simp only [if_neg hc]
  exact ⟨trivial, trivial⟩

/-- C5 witness: a fresh Lifecycle has currentStep -1, so both operations
leave it unchanged. -/
theorem complete_fail_noop_out_of_range_witness :
    CompleteCurrentStep NewLifecycle "late result" = NewLifecycle ∧
    FailCurrentStep NewLifecycle none = NewLifecycle :=
  complete_fail_noop_out_of_range NewLifecycle "late result" none
    (Or.inl (by decide))

/-! ## C7: maxMessages = 3 pruning scenario -/

/-- C7: with maxMessages 3 and no token limit, adding A(system), B(user),
C(user), D(user), E(user) leaves exactly [A, D, E]: the system message
first, then the two most recent non-system messages in original order. -/
theorem prune_scenario_max_messages_three :
    GetMessages (runAdds { maxMessages := 3, maxTokens := 0, charsPerToken := 4 }
      [⟨Role.system, "A"⟩, ⟨Role.user, "B"⟩, ⟨Role.user, "C"⟩,
       ⟨Role.user, "D"⟩, ⟨Role.user, "E"⟩]) =
    [⟨Role.system, "A"⟩, ⟨Role.user, "D"⟩, ⟨Role.user, "E"⟩] := by
  decide

/-! ## C8: Modify round-trip -/

/-- C8: for every Modify FileChange, applying it (write NewContent) and then
rolling it back (write OldContent) leaves the file byte-for-byte equal to
OldContent, provided the storage writes do not fail. -/
theorem modify_roundtrip (fs : FS) (c : FileChange)
    (hty : c.type = ChangeType.modify) (hw : fs.failWrite c.path = false) :
    ∃ fs2, (applyChange c fs).bind (rollbackChange c) = some fs2 ∧
      fs2.files c.path = some c.oldContent := by
  simp [applyChange, rollbackChange, fsWrite, hty, hw]

/-- C8 witness: the round trip on a concrete modification. -/
theorem modify_roundtrip_witness :
    ∃ fs2, (applyChange changeW fsW).bind (rollbackChange changeW) = some fs2 ∧
      fs2.files changeW.path = some changeW.oldContent :=
  modify_roundtrip fsW changeW rfl rfl

/-! ## C2: ApplyChangeSet failure rollback -/

/-- C2: applying a current ChangeSet of three Modify changes whose third
storage write fails returns an error, restores the first two files to their
OldContent (reverse-order rollback of the applied prefix) and leaves the
failed set out of GetHistory. -/
theorem apply_rollback_on_failure
    (fs : FS) (hist : List ChangeSet) (csid csname csdesc : String)
    (i1 i2 i3 d1 d2 d3 ds1 ds2 ds3 : String)
    (p1 p2 p3 o1 o2 o3 n1 n2 n3 : String)
    (h12 : p1 ≠ p2) (h13 : p1 ≠ p3) (h23 : p2 ≠ p3)
    (hw1 : fs.failWrite p1 = false) (hw2 : fs.failWrite p2 = false)
    (hw3 : fs.failWrite p3 = true) :
    let cm : ChangeManager :=
      { current := some
          { id := csid, name := csname, description := csdesc,
            changes := [mkModify i1 p1 o1 n1 d1 ds1, mkModify i2 p2 o2 n2 d2 ds2,
                        mkModify i3 p3 o3 n3 d3 ds3],
            rolledBack := false },
        history := hist }
    let r := ApplyChangeSet cm fs
    (∃ e, r.2.2 = Except.error e) ∧
    r.2.1.files p1 = some o1 ∧ r.2.1.files p2 = some o2 ∧
    GetHistory r.1 = hist := by
  intro cm r
  simp only [cm, r, ApplyChangeSet, applyLoop, applyChange, mkModify, fsWrite,
    hw1, hw2, hw3, rollbackList, rollbackChange, GetHistory]
  simp [hw1, hw2, hw3, h12, h13, h23, Ne.symm h12, Ne.symm h13, Ne.symm h23]

/-- C2 witness: the failing three-change scenario on a concrete filesystem
whose writes to p3 fail. -/
theorem apply_rollback_on_failure_witness :
    (∃ e, (ApplyChangeSet cmW fsW2).2.2 = Except.error e) ∧
    (ApplyChangeSet cmW fsW2).2.1.files "p1" = some "o1" ∧
    (ApplyChangeSet cmW fsW2).2.1.files "p2" = some "o2" ∧
    GetHistory (ApplyChangeSet cmW fsW2).1 = [] :=
  apply_rollback_on_failure fsW2 [] "cs1" "set" "" "c1" "c2" "c3" "" "" "" "" "" ""
    "p1" "p2" "p3" "o1" "o2" "o3" "n1" "n2" "n3"
    (by decide) (by decide) (by decide) rfl rfl rfl

/-! ## C10: RemoveLastMessage / RemoveLastN ignore roles -/

/-- C10: RemoveLastMessage drops the most recent message even when it has
System role, and RemoveLastN with n at least the message count empties the
context entirely, System messages included. -/
theorem remove_last_trims_system (c : AgentContext) (h : c.messages ≠ [])
    (hsys : (c.messages.getLast h).role = Role.system) :
    (RemoveLastMessage c).messages = c.messages.dropLast ∧
    ∀ n : Nat, c.messages.length ≤ n → (RemoveLastN c n).messages = [] := by
  constructor
  · unfold RemoveLastMessage
    rw [if_pos]
    exact List.length_pos.mpr h
  · intro n hn
    unfold RemoveLastN
    rw [if_pos hn]

/-- C10 witness: a context ending in a System message loses it to
RemoveLastMessage, and RemoveLastN 2 empties the context. -/
theorem remove_last_trims_system_witness :
    (RemoveLastMessage ctxW).messages = ctxW.messages.dropLast ∧
    (RemoveLastN ctxW 2).messages = [] :=
  ⟨(remove_last_trims_system ctxW (by decide) (by decide)).1,
   (remove_last_trims_system ctxW (by decide) (by decide)).2 2 (by decide)⟩


/-! ## Approval Manager lemmas -/

theorem itemsLookup_insert (items : List (String × ApprovalItem)) (id : String)
    (v : ApprovalItem) (id3 : String) :
    itemsLookup (itemsInsert items id v) id3 =
      if id3 = id then some v else itemsLookup items id3 := by
  induction items with
  | nil =>
    by_cases h : id3 = id
    · subst h
      simp [itemsInsert, itemsLookup]
    · simp [itemsInsert, itemsLookup, List.find?_cons, h, Ne.symm h,
        beq_eq_false_iff_ne]
  | cons kv rest ih =>
    by_cases hk : kv.1 = id
    · by_cases h : id3 = id
      · subst h hk
        simp [itemsInsert, itemsLookup]
      · simp [itemsInsert, itemsLookup, hk, h, Ne.symm h, List.find?_cons,
          beq_eq_false_iff_ne, hk ▸ h]
    · by_cases h : id3 = kv.1
      · subst h
        simp [itemsInsert, itemsLookup, hk, List.find?_cons,
          beq_eq_false_iff_ne, if_neg (by exact hk)]
      · have hbeq : (kv.1 == id) = false := by
          simpa [beq_eq_false_iff_ne] using hk
        have hbeq3 : (kv.1 == id3) = false := by
          simpa [beq_eq_false_iff_ne] using Ne.symm h
        simp only [itemsInsert, hbeq, Bool.false_eq_true, if_false, itemsLookup,
          List.find?_cons, hbeq3] at ih ⊢
        exact ih


theorem approval_status_transition (am2 : ApprovalManager) (id2 r2 id3 : String)
    (before after : ApprovalItem)
    (hb : itemsLookup am2.items id3 = some before)
    (ha : itemsLookup (Approve am2 id2).1.items id3 = some after ∨
          itemsLookup (Reject am2 id2 r2).1.items id3 = some after) :
    after = before ∨
    (before.status = ApprovalStatus.pending ∧
      (after.status = ApprovalStatus.approved ∨
       after.status = ApprovalStatus.rejected)) := by
  rcases ha with ha | ha
  · unfold Approve at ha
    cases hlk : itemsLookup am2.items id2 with
    | none =>
      simp only [hlk] at ha
      left
      rw [hb] at ha
      exact (Option.some.inj ha).symm
    | some item2 =>
      simp only [hlk] at ha
      by_cases hst : item2.status ≠ ApprovalStatus.pending
      · rw [if_pos hst] at ha
        simp only at ha
        left
        rw [hb] at ha
        exact (Option.some.inj ha).symm
      · rw [if_neg hst] at ha
        simp only [itemsLookup_insert] at ha
        by_cases heq : id3 = id2
        · subst heq
          rw [if_pos rfl] at ha
          right
          rw [hlk] at hb
          have hbe : before = item2 := Option.some_injective _ hb.symm
          push_neg at hst
          refine ⟨hbe ▸ hst, Or.inl ?_⟩
          have : after = { item2 with status := ApprovalStatus.approved } :=
            Option.some_injective _ ha.symm
          rw [this]
        · rw [if_neg heq] at ha
          left
          rw [hb] at ha
          exact (Option.some.inj ha).symm
  · unfold Reject at ha
    cases hlk : itemsLookup am2.items id2 with
    | none =>
      simp only [hlk] at ha
      left
      rw [hb] at ha
      exact (Option.some.inj ha).symm
    | some item2 =>
      simp only [hlk] at ha
      by_cases hst : item2.status ≠ ApprovalStatus.pending
      · rw [if_pos hst] at ha
        simp only at ha
        left
        rw [hb] at ha
        exact (Option.some.inj ha).symm
      · rw [if_neg hst] at ha
        simp only [itemsLookup_insert] at ha
        by_cases heq : id3 = id2
        · subst heq
          rw [if_pos rfl] at ha
          right
          rw [hlk] at hb
          have hbe : before = item2 := Option.some_injective _ hb.symm
          push_neg at hst
          refine ⟨hbe ▸ hst, Or.inr ?_⟩
          have : after = { item2 with status := ApprovalStatus.rejected, reason := r2 } :=
            Option.some_injective _ ha.symm
          rw [this]
        · rw [if_neg heq] at ha
          left
          rw [hb] at ha
          exact (Option.some.inj ha).symm


theorem digitChar_toNat (d : Nat) (h : d < 10) : (digitChar d).toNat = 48 + d := by
  interval_cases d <;> decide

theorem decodeDigits_decCharsAux (fuel n : Nat) (h : n ≤ fuel) :
    decodeDigits (decCharsAux fuel n) = n := by
  induction fuel generalizing n with
  | zero =>
    interval_cases n
    decide
  | succ f ih =>
    cases n with
    | zero => rfl
    | succ m =>
      have hdiv : (m + 1) / 10 ≤ f := by
        have := Nat.div_lt_self (Nat.succ_pos m) (by norm_num : 1 < 10)
        omega
      have hmod : (m + 1) % 10 < 10 := Nat.mod_lt _ (by norm_num)
      show decodeDigits (decCharsAux f ((m + 1) / 10) ++ [digitChar ((m + 1) % 10)]) = m + 1
      unfold decodeDigits
      rw [List.foldl_append]
      have hih := ih ((m + 1) / 10) hdiv
      unfold decodeDigits at hih
      rw [hih]
      simp only [List.foldl_cons, List.foldl_nil]
      rw [digitChar_toNat _ hmod]
      omega

theorem decodeDigits_decRepr (n : Nat) : decodeDigits (decRepr n) = n := by
  unfold decRepr
  by_cases h : n = 0
  · subst h
    decide
  · rw [if_neg h]
    exact decodeDigits_decCharsAux n n le_rfl

theorem decimalString_injective (m n : Nat) (h : decimalString m = decimalString n) :
    m = n := by
  unfold decimalString at h
  have hdata : decRepr m = decRepr n := by
    have := congrArg String.data h
    simpa using this
  have := congrArg decodeDigits hdata
  rwa [decodeDigits_decRepr, decodeDigits_decRepr] at this

theorem approvalID_injective (m n : Nat) (h : approvalID m = approvalID n) : m = n := by
  unfold approvalID at h
  have hdata := congrArg String.data h
  simp only [String.data_append] at hdata
  have : (decimalString m).data = (decimalString n).data :=
    List.append_cancel_left hdata
  exact decimalString_injective m n (String.ext this)


theorem itemsLookup_eq_none_iff (items : List (String × ApprovalItem)) (id : String) :
    itemsLookup items id = none ↔ id ∉ items.map Prod.fst := by
  induction items with
  | nil => simp [itemsLookup]
  | cons kv rest ih =>
    by_cases h : kv.1 = id
    · subst h
      simp [itemsLookup, List.find?_cons]
    · have hbeq : (kv.1 == id) = false := by simpa [beq_eq_false_iff_ne] using h
      simp only [itemsLookup, List.find?_cons, hbeq, List.map_cons, List.mem_cons]
      simp only [itemsLookup] at ih
      rw [ih]
      constructor
      · intro hn
        rintro (rfl | hm)
        · exact h rfl
        · exact hn hm
      · intro hn hm
        exact hn (Or.inr hm)

theorem itemsInsert_keys_new (items : List (String × ApprovalItem)) (id : String)
    (v : ApprovalItem) (h : id ∉ items.map Prod.fst) :
    (itemsInsert items id v).map Prod.fst = items.map Prod.fst ++ [id] := by
  induction items with
  | nil => simp [itemsInsert]
  | cons kv rest ih =>
    simp only [List.map_cons, List.mem_cons] at h
    push_neg at h
    have hbeq : (kv.1 == id) = false := by
      simpa [beq_eq_false_iff_ne] using fun he => h.1 he.symm
    simp only [itemsInsert, hbeq, Bool.false_eq_true, if_false, List.map_cons,
      List.cons_append, List.cons.injEq, true_and]
    exact ih h.2

theorem itemsInsert_keys_mem (items : List (String × ApprovalItem)) (id : String)
    (v : ApprovalItem) (h : id ∈ items.map Prod.fst) :
    (itemsInsert items id v).map Prod.fst = items.map Prod.fst := by
  induction items with
  | nil => simp at h
  | cons kv rest ih =>
    by_cases hk : kv.1 = id
    · subst hk
      simp [itemsInsert]
    · have hbeq : (kv.1 == id) = false := by simpa [beq_eq_false_iff_ne] using hk
      simp only [List.map_cons, List.mem_cons] at h
      rcases h with h | h
      · exact absurd h.symm hk
      · simp only [itemsInsert, hbeq, Bool.false_eq_true, if_false, List.map_cons,
          List.cons.injEq, true_and]
        exact ih h

theorem approvalID_fresh (n : Nat) : approvalID n ∉ (List.range n).map approvalID := by
  intro hmem
  simp only [List.mem_map, List.mem_range] at hmem
  obtain ⟨i, hi, hEq⟩ := hmem
  have := approvalID_injective i n hEq
  omega

theorem goodKeys_add (am : ApprovalManager) (tc : ToolCall) (rq : ApprovalRequest)
    (h : goodKeys am) : goodKeys (ApprovalAdd am tc rq).1 := by
  unfold goodKeys at h ⊢
  unfold ApprovalAdd
  simp only
  have hfresh : approvalID am.items.length ∉ am.items.map Prod.fst := by
    rw [h]
    exact approvalID_fresh am.items.length
  have hkeys := itemsInsert_keys_new am.items (approvalID am.items.length)
    { id := approvalID am.items.length, toolCall := tc, request := rq,
      status := ApprovalStatus.pending, reason := "" } hfresh
  rw [hkeys, h]
  have hlen : (itemsInsert am.items (approvalID am.items.length)
      { id := approvalID am.items.length, toolCall := tc, request := rq,
        status := ApprovalStatus.pending, reason := "" }).length = am.items.length + 1 := by
    have := congrArg List.length hkeys
    simpa using this
  rw [hlen]
  rw [List.range_succ, List.map_append]
  simp

theorem goodKeys_approve (am : ApprovalManager) (id : String)
    (h : goodKeys am) : goodKeys (Approve am id).1 := by
  unfold Approve
  cases hlk : itemsLookup am.items id with
  | none => simpa using h
  | some item =>
    simp only
    by_cases hst : item.status ≠ ApprovalStatus.pending
    · rw [if_pos hst]
      exact h
    · rw [if_neg hst]
      unfold goodKeys at h ⊢
      simp only
      have hmem : id ∈ am.items.map Prod.fst := by
        by_contra hn
        rw [← itemsLookup_eq_none_iff] at hn
        rw [hlk] at hn
        cases hn
      have hkeys := itemsInsert_keys_mem am.items id
        { item with status := ApprovalStatus.approved } hmem
      have hlen : (itemsInsert am.items id
          { item with status := ApprovalStatus.approved }).length = am.items.length := by
        have := congrArg List.length hkeys
        simpa using this
      rw [hkeys, hlen, h]

theorem goodKeys_reject (am : ApprovalManager) (id r : String)
    (h : goodKeys am) : goodKeys (Reject am id r).1 := by
  unfold Reject
  cases hlk : itemsLookup am.items id with
  | none => simpa using h
  | some item =>
    simp only
    by_cases hst : item.status ≠ ApprovalStatus.pending
    · rw [if_pos hst]
      exact h
    · rw [if_neg hst]
      unfold goodKeys at h ⊢
      simp only
      have hmem : id ∈ am.items.map Prod.fst := by
        by_contra hn
        rw [← itemsLookup_eq_none_iff] at hn
        rw [hlk] at hn
        cases hn
      have hkeys := itemsInsert_keys_mem am.items id
        { item with status := ApprovalStatus.rejected, reason := r } hmem
      have hlen : (itemsInsert am.items id
          { item with status := ApprovalStatus.rejected, reason := r }).length = am.items.length := by
        have := congrArg List.length hkeys
        simpa using this
      rw [hkeys, hlen, h]

theorem goodKeys_run (ops : List AOp) (am : ApprovalManager)
    (h : goodKeys am) (hnc : hasClearResolved ops = false) :
    goodKeys (runAOps am ops) := by
  induction ops generalizing am with
  | nil => simpa [runAOps] using h
  | cons op rest ih =>
    simp only [hasClearResolved, List.any_cons, Bool.or_eq_false_iff] at hnc
    have hstep : goodKeys (execAOp am op) := by
      cases op with
      | addOp tc rq => exact goodKeys_add am tc rq h
      | approveOp id => exact goodKeys_approve am id h
      | rejectOp id r => exact goodKeys_reject am id r h
      | clearResolvedOp => simp at hnc
    have : hasClearResolved rest = false := hnc.2
    simpa [runAOps] using ih (execAOp am op) hstep this

/-! ## C3: approval exactly-once -/

/-- C3: once an ApprovalItem is resolved, any further Approve or Reject on
its id returns an error and leaves the whole manager (hence the status and
rejection reason of the item) unchanged; and for any Approve or Reject, an
item is either untouched or moves from Pending to Approved (respectively
Rejected) — the only transitions ever performed. -/
theorem approval_exactly_once (am : ApprovalManager) (id reason : String)
    (item : ApprovalItem)
    (hlk : itemsLookup am.items id = some item)
    (hres : item.status ≠ ApprovalStatus.pending) :
    ((Approve am id).1 = am ∧ ∃ e, (Approve am id).2 = Except.error e) ∧
    ((Reject am id reason).1 = am ∧ ∃ e, (Reject am id reason).2 = Except.error e) ∧
    (∀ (am2 : ApprovalManager) (id2 r2 id3 : String) (before after : ApprovalItem),
      itemsLookup am2.items id3 = some before →
      (itemsLookup (Approve am2 id2).1.items id3 = some after ∨
       itemsLookup (Reject am2 id2 r2).1.items id3 = some after) →
      after = before ∨
      (before.status = ApprovalStatus.pending ∧
        (after.status = ApprovalStatus.approved ∨
         after.status = ApprovalStatus.rejected))) := by
  refine ⟨?_, ?_, fun am2 id2 r2 id3 b a hb ha =>
    approval_status_transition am2 id2 r2 id3 b a hb ha⟩
  · unfold Approve
    simp only [hlk, if_pos hres]
    exact ⟨trivial, _, rfl⟩
  · unfold Reject
    simp only [hlk, if_pos hres]
    exact ⟨trivial, _, rfl⟩

/-- C3 witness: a manager whose only item is already Approved rejects both a
second Approve and a Reject without effect. -/
theorem approval_exactly_once_witness :
    (Approve amResolvedW "approval_0").1 = amResolvedW ∧
    (∃ e, (Approve amResolvedW "approval_0").2 = Except.error e) ∧
    (∃ e, (Reject amResolvedW "approval_0" "changed my mind").2 = Except.error e) :=
  have h := approval_exactly_once amResolvedW "approval_0" "changed my mind"
    itemW (by decide) (by decide)
  ⟨h.1.1, h.1.2, h.2.1.2⟩

/-! ## C9: approval id uniqueness -/

/-- C9 counterexample: the claim fails as stated. Add derives the id from
len(items), and ClearResolved shrinks the map, so after add, add, approve
approval_0, ClearResolved, the next Add reuses the id approval_1 of the
still-registered pending item. -/
theorem add_after_clear_resolved_collides :
    (ApprovalAdd (runAOps NewApprovalManager
      [AOp.addOp tcW rqW, AOp.addOp tcW rqW, AOp.approveOp "approval_0",
       AOp.clearResolvedOp]) tcW rqW).2.id = "approval_1" ∧
    "approval_1" ∈ (runAOps NewApprovalManager
      [AOp.addOp tcW rqW, AOp.addOp tcW rqW, AOp.approveOp "approval_0",
       AOp.clearResolvedOp]).items.map Prod.fst := by
  decide

/-- C9 (amended): after any sequence of Add, Approve and Reject operations
with no ClearResolved, all registry item ids are pairwise distinct and the
next Add returns a fresh id not present in the registry; a ClearResolved
that removed a resolved item while a pending one remains can make Add reuse
an existing id. -/
theorem approval_ids_distinct_no_clear (ops : List AOp) (tc : ToolCall)
    (rq : ApprovalRequest) (hnc : hasClearResolved ops = false) :
    ((runAOps NewApprovalManager ops).items.map Prod.fst).Nodup ∧
    (ApprovalAdd (runAOps NewApprovalManager ops) tc rq).2.id ∉
      (runAOps NewApprovalManager ops).items.map Prod.fst := by
  have hg : goodKeys (runAOps NewApprovalManager ops) :=
    goodKeys_run ops NewApprovalManager (by simp [goodKeys, NewApprovalManager]) hnc
  unfold goodKeys at hg
  constructor
  · rw [hg]
    exact (List.nodup_range _).map (fun a b => approvalID_injective a b)
  · show approvalID (runAOps NewApprovalManager ops).items.length ∉ _
    rw [hg]
    exact approvalID_fresh _

/-- C9 witness: a concrete clear-free trace has distinct ids and the next
Add is fresh. -/
theorem approval_ids_distinct_no_clear_witness :
    ((runAOps NewApprovalManager aopsW).items.map Prod.fst).Nodup ∧
    (ApprovalAdd (runAOps NewApprovalManager aopsW) tcW rqW).2.id ∉
      (runAOps NewApprovalManager aopsW).items.map Prod.fst :=
  approval_ids_distinct_no_clear aopsW tcW rqW (by decide)


/-! ## Agent loop lemmas -/

theorem processCalls_counts (ctx : AgentContext) (cs : List (ToolCall × ToolOutcome)) :
    (processCalls ctx cs).2.1.length =
      cs.countP (fun c => outcomeNeedsApproval c.2) ∧
    (processCalls ctx cs).2.2.length =
      cs.countP (fun c => outcomeExecuted c.2) := by
  induction cs generalizing ctx with
  | nil => simp [processCalls]
  | cons c rest ih =>
    cases hoc : c.2 with
    | failed err =>
      have := ih (AddMessage ctx ⟨Role.user, "Tool " ++ c.1.name ++ " failed: " ++ err⟩)
      constructor <;>
        simp [processCalls, hoc, this.1, this.2, List.countP_cons,
          outcomeNeedsApproval, outcomeExecuted]
    | needsApproval rq =>
      have := ih ctx
      constructor <;>
        simp [processCalls, hoc, this.1, this.2, List.countP_cons,
          outcomeNeedsApproval, outcomeExecuted]
    | executed out =>
      have := ih (AddMessage ctx ⟨Role.user, "Tool " ++ c.1.name ++ " result:\n" ++ out⟩)
      constructor <;>
        simp [processCalls, hoc, this.1, this.2, List.countP_cons,
          outcomeNeedsApproval, outcomeExecuted]

theorem loopAux_calls_le (env : Nat → LoopIter) (fuel i : Nat) (ctx : AgentContext)
    (resp : LoopResp) (calls : Nat) :
    (loopAux env fuel i ctx resp calls).2.2 ≤ calls + fuel := by
  induction fuel generalizing i ctx resp calls with
  | zero => simp [loopAux]
  | succ f ih =>
    unfold loopAux
    cases (env i).model with
    | error e => simp
    | ok content =>
      simp only
      split
      · simp
      · split
        · simp
        · split
          · exact le_trans (ih (i+1) _ _ (calls+1)) (by omega)
          · simp



theorem loopAux_all_continue (env : Nat → LoopIter) (fuel : Nat) :
    ∀ (i : Nat) (ctx : AgentContext) (resp : LoopResp) (calls : Nat),
    (∀ j, i ≤ j → j < i + fuel → iterContinues (env j) = true) →
    (loopAux env fuel i ctx resp calls).2.1.error = some loopExceededError ∧
    (loopAux env fuel i ctx resp calls).2.1.done = true := by
  induction fuel with
  | zero =>
    intro i ctx resp calls hc
    simp [loopAux]
  | succ f ih =>
    intro i ctx resp calls hc
    have hci : iterContinues (env i) = true := hc i le_rfl (by omega)
    unfold iterContinues at hci
    simp only [Bool.and_eq_true, Bool.not_eq_true'] at hci
    obtain ⟨⟨⟨hmodel, hne⟩, hnoap⟩, hexec⟩ := hci
    unfold loopAux
    cases hm : (env i).model with
    | error e =>
      rw [hm] at hmodel
      simp at hmodel
    | ok content =>
      simp only
      have hlen : ¬ ((env i).calls.length = 0) := by
        intro h0
        rw [List.length_eq_zero] at h0
        rw [h0] at hne
        simp at hne
      rw [if_neg hlen]
      have hcounts := processCalls_counts
        (AddMessage ctx ⟨Role.assistant, content⟩) (env i).calls
      have hpend0 : (processCalls (AddMessage ctx ⟨Role.assistant, content⟩)
          (env i).calls).2.1.length = 0 := by
        rw [hcounts.1]
        rw [List.countP_eq_zero]
        intro a ha
        have := List.all_eq_true.mp hnoap a ha
        simp only [Bool.not_eq_true'] at this
        simp [this]
      have hexecpos : 0 < (processCalls (AddMessage ctx ⟨Role.assistant, content⟩)
          (env i).calls).2.2.length := by
        rw [hcounts.2]
        rw [List.countP_pos_iff]
        exact List.any_eq_true.mp hexec
      rw [if_neg (by omega : ¬ (processCalls (AddMessage ctx ⟨Role.assistant, content⟩)
          (env i).calls).2.1.length > 0)]
      rw [if_pos hexecpos]
      apply ih (i + 1)
      intro j hj1 hj2
      exact hc j (by omega) (by omega)

/-! ## C6: bounded request loop -/

/-- C6: for every model and tool behaviour the request/response sub-loop
makes at most 10 (maxIterations) Model Service calls, and when every
iteration takes the continue branch the loop stops and returns the
loop-exceeded error to the caller. -/
theorem loop_bounded_and_exceed (env : Nat → LoopIter) (ctx : AgentContext) :
    (loop env ctx).2.2 ≤ maxIterations ∧
    ((∀ j, j < maxIterations → iterContinues (env j) = true) →
      (loop env ctx).2.1.error = some loopExceededError ∧
      (loop env ctx).2.1.done = true) := by
  constructor
  · have := loopAux_calls_le env maxIterations 0 ctx emptyLoopResp 0
    simpa [loop] using this
  · intro hc
    exact loopAux_all_continue env maxIterations 0 ctx emptyLoopResp 0
      (fun j h0 hj => hc j (by omega))

/-- C6 witness: an environment whose every iteration succeeds and executes a
tool keeps the loop spinning until the bound trips. -/
theorem loop_bounded_and_exceed_witness :
    (loop envW NewContext).2.2 ≤ maxIterations ∧
    (loop envW NewContext).2.1.error = some loopExceededError :=
  have h := loop_bounded_and_exceed envW NewContext
  ⟨h.1, (h.2 (by decide)).1⟩


/-! ## Context Manager lemmas -/

theorem prune_config (c : AgentContext) : (prune c).config = c.config := rfl

theorem addMessage_config (c : AgentContext) (m : Message) :
    (AddMessage c m).config = c.config := by
  unfold AddMessage checkAndPrune
  split
  · exact prune_config _
  · rfl

theorem foldl_config (msgs : List Message) (c : AgentContext) :
    (msgs.foldl AddMessage c).config = c.config := by
  induction msgs generalizing c with
  | nil => rfl
  | cons m ms ih => rw [List.foldl_cons, ih, addMessage_config]

theorem newContext_cpt_pos (cfg : ContextConfig) :
    0 < (NewContextWithConfig cfg).config.charsPerToken := by
  unfold NewContextWithConfig
  by_cases h : cfg.charsPerToken ≤ 0
  · simp [h]
  · simp only [h, if_false]
    omega

theorem newContext_maxTokens (cfg : ContextConfig) :
    (NewContextWithConfig cfg).config.maxTokens = cfg.maxTokens := by
  unfold NewContextWithConfig
  by_cases h : cfg.charsPerToken ≤ 0 <;> simp [h]

theorem foldl_tokens_eq_sum (cpt : Int) (msgs : List Message) :
    ∀ a : Int, msgs.foldl (fun acc m => acc + messageTokens cpt m) a =
      a + sumTokens cpt msgs := by
  induction msgs with
  | nil => intro a; simp [sumTokens]
  | cons m ms ih =>
    intro a
    simp only [List.foldl_cons, sumTokens, List.map_cons, List.sum_cons]
    rw [ih (a + messageTokens cpt m)]
    unfold sumTokens
    ring

theorem totalChars_acc (msgs : List Message) :
    ∀ a : Nat, msgs.foldl (fun acc m => acc + m.content.length) a =
      a + (msgs.map (fun m => m.content.length)).sum := by
  induction msgs with
  | nil => intro a; simp
  | cons m ms ih =>
    intro a
    simp only [List.foldl_cons, List.map_cons, List.sum_cons]
    rw [ih (a + m.content.length)]
    ring

theorem perMessageTokens_eq_sum (c : AgentContext) :
    perMessageTokens c = sumTokens c.config.charsPerToken c.messages := by
  unfold perMessageTokens
  rw [foldl_tokens_eq_sum]
  ring

theorem ediv_add_ediv_le (a b c : Int) (h : 0 < c) : a / c + b / c ≤ (a + b) / c := by
  rw [Int.le_ediv_iff_mul_le h]
  nlinarith [Int.ediv_add_emod a c, Int.ediv_add_emod b c,
    Int.emod_nonneg a (by omega : c ≠ 0), Int.emod_nonneg b (by omega : c ≠ 0)]

theorem sumTokens_le_estimate (cpt : Int) (hc : 0 < cpt) (msgs : List Message) :
    sumTokens cpt msgs ≤ (totalChars msgs : Int) / cpt := by
  unfold totalChars
  rw [totalChars_acc msgs 0]
  induction msgs with
  | nil => simp [sumTokens]
  | cons m ms ih =>
    simp only [sumTokens, List.map_cons, List.sum_cons, List.map_cons] at ih ⊢
    have hstep := ediv_add_ediv_le (m.content.length : Int)
      (((ms.map (fun m => m.content.length)).sum : Nat) : Int) cpt hc
    have hmt : messageTokens cpt m = (m.content.length : Int) / cpt := rfl
    rw [hmt]
    have : sumTokens cpt ms ≤ (((ms.map (fun m => m.content.length)).sum : Nat) : Int) / cpt := by
      simpa [sumTokens] using ih
    calc (m.content.length : Int) / cpt + (ms.map (messageTokens cpt)).sum
        ≤ (m.content.length : Int) / cpt +
          (((ms.map (fun m => m.content.length)).sum : Nat) : Int) / cpt := by
          have := this
          unfold sumTokens at this
          omega
      _ ≤ ((m.content.length : Int) +
          (((ms.map (fun m => m.content.length)).sum : Nat) : Int)) / cpt := hstep
      _ = (((0 + (m.content.length + (ms.map (fun m => m.content.length)).sum) : Nat) : Int)) / cpt := by
          push_cast
          ring_nf



theorem tokenScan_invariant (cpt avail : Int) (l : List Message) :
    ∀ (st : Int × List Message × List Message),
      st.1 = sumTokens cpt st.2.1 →
      (st.2.1 = [] ∨ st.1 ≤ avail) →
      ((l.foldl (pruneTokenStep cpt avail) st).1 =
        sumTokens cpt (l.foldl (pruneTokenStep cpt avail) st).2.1) ∧
      ((l.foldl (pruneTokenStep cpt avail) st).2.1 = [] ∨
        (l.foldl (pruneTokenStep cpt avail) st).1 ≤ avail) := by
  induction l with
  | nil =>
    intro st h1 h2
    exact ⟨h1, h2⟩
  | cons m ms ih =>
    intro st h1 h2
    simp only [List.foldl_cons]
    apply ih
    · simp only [pruneTokenStep]
      split_ifs with h
      · simp only [sumTokens, List.map_cons, List.sum_cons]
        rw [h1]
        unfold sumTokens
        ring
      · exact h1
    · simp only [pruneTokenStep]
      split_ifs with h
      · right
        exact h
      · exact h2

theorem tokenScan_kept_sub (cpt avail : Int) (l : List Message) :
    ∀ (st : Int × List Message × List Message) (x : Message),
      x ∈ (l.foldl (pruneTokenStep cpt avail) st).2.1 → x ∈ st.2.1 ∨ x ∈ l := by
  induction l with
  | nil =>
    intro st x hx
    exact Or.inl hx
  | cons m ms ih =>
    intro st x hx
    simp only [List.foldl_cons] at hx
    rcases ih (pruneTokenStep cpt avail st m) x hx with hin | hin
    · simp only [pruneTokenStep] at hin
      split_ifs at hin with h
      · simp only [List.mem_cons] at hin
        rcases hin with rfl | hin
        · exact Or.inr (List.mem_cons_self _ _)
        · exact Or.inl hin
      · exact Or.inl hin
    · exact Or.inr (List.mem_cons_of_mem _ hin)



theorem prune_messages_of_maxTokens (c : AgentContext) (hmt : 0 < c.config.maxTokens) :
    ∃ other1 : List Message,
      (∀ x ∈ other1, isSystem x = false) ∧
      (prune c).messages = c.messages.filter isSystem ++
        (other1.reverse.foldl (pruneTokenStep c.config.charsPerToken
          (c.config.maxTokens - (c.messages.filter isSystem).foldl
            (fun acc m => acc + messageTokens c.config.charsPerToken m) 0))
          (0, [], [])).2.1 := by
  simp only [prune]
  rw [if_pos hmt]
  by_cases hmm : c.config.maxMessages > 0
  · rw [if_pos hmm]
    by_cases hlen : ((c.messages.filter (fun m => !isSystem m)).length : Int) >
        max (c.config.maxMessages - (c.messages.filter isSystem).length) 0
    · rw [if_pos hlen]
      refine ⟨_, ?_, rfl⟩
      intro x hx
      have hx2 := List.mem_of_mem_drop hx
      have := List.mem_filter.mp hx2
      simpa using this.2
    · rw [if_neg hlen]
      refine ⟨_, ?_, rfl⟩
      intro x hx
      have := List.mem_filter.mp hx
      simpa using this.2
  · rw [if_neg hmm]
    refine ⟨_, ?_, rfl⟩
    intro x hx
    have := List.mem_filter.mp hx
    simpa using this.2



theorem filter_not_system_of_system (l : List Message) :
    (l.filter isSystem).filter (fun m => !isSystem m) = [] := by
  rw [List.filter_eq_nil_iff]
  intro a ha
  have := (List.mem_filter.mp ha).2
  simp [this]

theorem prune_token_bound (c : AgentContext) (hmt : 0 < c.config.maxTokens) :
    perMessageTokens (prune c) ≤ c.config.maxTokens ∨
    nonSystemMessages (prune c) = [] := by
  obtain ⟨o1, ho1, hmsg⟩ := prune_messages_of_maxTokens c hmt
  have hcfg : (prune c).config = c.config := prune_config c
  have hsysTok : (c.messages.filter isSystem).foldl
      (fun acc m => acc + messageTokens c.config.charsPerToken m) 0 =
      sumTokens c.config.charsPerToken (c.messages.filter isSystem) := by
    rw [foldl_tokens_eq_sum]
    ring
  have hinv := tokenScan_invariant c.config.charsPerToken
    (c.config.maxTokens - (c.messages.filter isSystem).foldl
      (fun acc m => acc + messageTokens c.config.charsPerToken m) 0)
    o1.reverse (0, [], []) (by simp [sumTokens]) (Or.inl rfl)
  rcases hinv.2 with hk | hle
  · right
    unfold nonSystemMessages
    rw [hmsg, hk, List.append_nil]
    exact filter_not_system_of_system c.messages
  · left
    rw [perMessageTokens_eq_sum, hcfg, hmsg]
    unfold sumTokens
    rw [List.map_append, List.sum_append]
    have hkeptEq := hinv.1
    have hsys2 := hsysTok
    unfold sumTokens at hkeptEq hsys2
    omega



theorem addMessage_token_bound (c : AgentContext) (m : Message)
    (hcpt : 0 < c.config.charsPerToken) (hmt : 0 < c.config.maxTokens) :
    perMessageTokens (AddMessage c m) ≤ c.config.maxTokens ∨
    nonSystemMessages (AddMessage c m) = [] := by
  unfold AddMessage checkAndPrune
  split_ifs with hcond
  · exact prune_token_bound { c with messages := c.messages ++ [m] } hmt
  · left
    have hest : estimateTokensLocked { c with messages := c.messages ++ [m] } ≤
        c.config.maxTokens := by
      by_contra hgt
      push_neg at hgt
      exact hcond (Or.inr ⟨hmt, hgt⟩)
    calc perMessageTokens { c with messages := c.messages ++ [m] }
        = sumTokens c.config.charsPerToken (c.messages ++ [m]) := by
          rw [perMessageTokens_eq_sum]
      _ ≤ (totalChars (c.messages ++ [m]) : Int) / c.config.charsPerToken :=
          sumTokens_le_estimate _ hcpt _
      _ ≤ c.config.maxTokens := hest

theorem prune_messages_split (c : AgentContext) :
    ∃ other2 : List Message, (∀ x ∈ other2, isSystem x = false) ∧
      (prune c).messages = c.messages.filter isSystem ++ other2 := by
  by_cases hmt : c.config.maxTokens > 0
  · obtain ⟨o1, ho1, hmsg⟩ := prune_messages_of_maxTokens c hmt
    refine ⟨_, ?_, hmsg⟩
    intro x hx
    rcases tokenScan_kept_sub _ _ _ _ x hx with hin | hin
    · simp at hin
    · exact ho1 x (List.mem_reverse.mp hin)
  · simp only [prune]
    rw [if_neg hmt]
    by_cases hmm : c.config.maxMessages > 0
    · rw [if_pos hmm]
      by_cases hlen : ((c.messages.filter (fun m => !isSystem m)).length : Int) >
          max (c.config.maxMessages - (c.messages.filter isSystem).length) 0
      · rw [if_pos hlen]
        refine ⟨_, ?_, rfl⟩
        intro x hx
        have hx2 := List.mem_of_mem_drop hx
        have := List.mem_filter.mp hx2
        simpa using this.2
      · rw [if_neg hlen]
        refine ⟨_, ?_, rfl⟩
        intro x hx
        have := List.mem_filter.mp hx
        simpa using this.2
    · rw [if_neg hmm]
      refine ⟨_, ?_, rfl⟩
      intro x hx
      have := List.mem_filter.mp hx
      simpa using this.2

theorem prune_filter_system (c : AgentContext) :
    (prune c).messages.filter isSystem = c.messages.filter isSystem := by
  obtain ⟨o2, ho2, hmsg⟩ := prune_messages_split c
  rw [hmsg, List.filter_append]
  have h1 : (c.messages.filter isSystem).filter isSystem =
      c.messages.filter isSystem := by
    simp [List.filter_filter]
  have h2 : o2.filter isSystem = [] :=
    List.filter_eq_nil_iff.mpr (fun a ha => by simp [ho2 a ha])
  rw [h1, h2, List.append_nil]

theorem addMessage_filter_system (c : AgentContext) (m : Message) :
    (AddMessage c m).messages.filter isSystem =
      (c.messages ++ [m]).filter isSystem := by
  unfold AddMessage checkAndPrune
  split_ifs with h
  · exact prune_filter_system _
  · rfl

theorem foldl_filter_system (msgs : List Message) (c : AgentContext) :
    (msgs.foldl AddMessage c).messages.filter isSystem =
      c.messages.filter isSystem ++ msgs.filter isSystem := by
  induction msgs generalizing c with
  | nil => simp
  | cons m ms ih =>
    rw [List.foldl_cons, ih, addMessage_filter_system, List.filter_append,
      List.append_assoc, ← List.filter_append]
    rfl

theorem runAdds_filter_system (cfg : ContextConfig) (msgs : List Message) :
    (runAdds cfg msgs).messages.filter isSystem = msgs.filter isSystem := by
  unfold runAdds
  rw [foldl_filter_system]
  have : (NewContextWithConfig cfg).messages = [] := by
    unfold NewContextWithConfig
    by_cases h : cfg.charsPerToken ≤ 0 <;> simp [h]
  rw [this]
  rfl

/-- C1 (amended): for any sequence of AddMessage calls on a fresh Context,
after each call, if maxTokens is positive then the per-message floored token
sum of the retained messages is within maxTokens or every non-System message
has been pruned; and the System messages retained are exactly the System
messages added, in order. EstimateTokens itself floors the aggregate and can
exceed maxTokens by rounding, which is what the counterexample exhibits. -/
theorem context_token_bound_per_message (cfg : ContextConfig) (msgs : List Message)
    (m : Message) (hmt : 0 < cfg.maxTokens) :
    (perMessageTokens (runAdds cfg (msgs ++ [m])) ≤ cfg.maxTokens ∨
      nonSystemMessages (runAdds cfg (msgs ++ [m])) = []) ∧
    (runAdds cfg (msgs ++ [m])).messages.filter isSystem =
      (msgs ++ [m]).filter isSystem := by
  constructor
  · have hsplit : runAdds cfg (msgs ++ [m]) = AddMessage (runAdds cfg msgs) m := by
      unfold runAdds
      rw [List.foldl_append]
      rfl
    rw [hsplit]
    have hcfg : (runAdds cfg msgs).config = (NewContextWithConfig cfg).config :=
      foldl_config msgs _
    have hcpt : 0 < (runAdds cfg msgs).config.charsPerToken := by
      rw [hcfg]
      exact newContext_cpt_pos cfg
    have hmt2 : 0 < (runAdds cfg msgs).config.maxTokens := by
      rw [hcfg, newContext_maxTokens]
      exact hmt
    have hb := addMessage_token_bound (runAdds cfg msgs) m hcpt hmt2
    rwa [show (runAdds cfg msgs).config.maxTokens = cfg.maxTokens from by
      rw [hcfg, newContext_maxTokens]] at hb
  · exact runAdds_filter_system cfg (msgs ++ [m])

/-- C1 counterexample: the claim fails as stated for EstimateTokens. With
maxTokens 1 and charsPerToken 4, three user messages of three characters
each are all kept (each one estimates to 0 tokens in the pruning loop), yet
EstimateTokens floors the aggregate 9 / 4 = 2 > 1 while non-System messages
remain. -/
theorem estimate_exceeds_budget_after_add :
    cfg1W.maxTokens = 1 ∧
    EstimateTokens (runAdds cfg1W [msg3W, msg3W, msg3W]) = 2 ∧
    nonSystemMessages (runAdds cfg1W [msg3W, msg3W, msg3W]) ≠ [] := by
  decide

/-- C1 witness: the same configuration satisfies the amended bound (the
per-message sum is 0, within the budget of 1). -/
theorem context_token_bound_per_message_witness :
    (perMessageTokens (runAdds cfg1W [msg3W, msg3W, msg3W]) ≤ cfg1W.maxTokens ∨
      nonSystemMessages (runAdds cfg1W [msg3W, msg3W, msg3W]) = []) ∧
    (runAdds cfg1W [msg3W, msg3W, msg3W]).messages.filter isSystem =
      [msg3W, msg3W, msg3W].filter isSystem :=
  context_token_bound_per_message cfg1W [msg3W, msg3W] msg3W (by decide)

end Anvil
